import Mathlib

/-!
Verification of the obito group-expense backend's core algorithms, embedded
shallowly from `src/server/src/index.js` (balance computation and settlement
suggestions) and `src/utils/bill-predictor.utils.js` (recurring-bill
detection and bill naming).  Monetary values are modelled as exact rationals;
JavaScript's `toFixed(2)` and `Math.round` become explicit rounding
functions.  Member `user` objects are opaque to the algorithms (only used as
identities and copied into results), so they are modelled as strings.
-/

set_option autoImplicit false

namespace Obito

/-- A share row of an expense: `{ userId, amount }`. -/
structure Share where
  userId : String
  amount : ℚ
deriving DecidableEq

/-- An expense as consumed by `calculateMemberBalances`:
`{ paidById, amount, shares }`. -/
structure Expense where
  paidById : String
  amount : ℚ
  shares : List Share
deriving DecidableEq

/-- One entry of the balances array built by `calculateMemberBalances`:
`{ user, paid, owed, balance }`. -/
structure MemberBalance where
  user : String
  paid : ℚ
  owed : ℚ
  balance : ℚ
deriving DecidableEq

/-- A settlement suggestion `{ from, to, amount }`. -/
structure Settlement where
  «from» : String
  «to» : String
  amount : ℚ
deriving DecidableEq

/-- JavaScript `parseFloat(x.toFixed(2))`: round to 2 decimal places.
ECMAScript `toFixed` rounds to the nearest multiple of `1/100`, ties toward
the larger value, which is `⌊100 x + 1/2⌋ / 100`. -/
def round2 (x : ℚ) : ℚ := (⌊x * 100 + 1/2⌋ : ℤ) / 100

/-- `.sort((a, b) => b.balance - a.balance)` — stable sort, most positive
balance first.  ECMAScript `Array.prototype.sort` is stable, and a stable
sort by a total preorder has a unique result, so stable insertion sort
models it exactly. -/
def sortByBalanceDesc (l : List MemberBalance) : List MemberBalance :=
  l.insertionSort (fun a b => b.balance ≤ a.balance)

/-- `.sort((a, b) => a.balance - b.balance)` — stable sort, most negative
balance first. -/
def sortByBalanceAsc (l : List MemberBalance) : List MemberBalance :=
  l.insertionSort (fun a b => a.balance ≤ b.balance)

/-- The keys of the `balances` object of `calculateMemberBalances`, in
JavaScript property-insertion order: first occurrence of each member id,
in list order (re-initialising an existing key keeps its position). -/
def insertionKeys : List String → List String
  | [] => []
  | a :: as => a :: (insertionKeys as).filter (fun b => b ≠ a)

/-- Total amount paid by member `id`: the accumulation
`balances[paidById].paid += expense.amount`, which silently skips payers
that are not keys of the balances object. -/
def paidOf (expenses : List Expense) (id : String) : ℚ :=
  (expenses.map (fun e => if e.paidById = id then e.amount else 0)).sum

/-- Total amount owed by member `id`: the accumulation
`balances[share.userId].owed += share.amount` over every share of every
expense, silently skipping non-member share holders. -/
def owedOf (expenses : List Expense) (id : String) : ℚ :=
  (expenses.map (fun e =>
    (e.shares.map (fun s => if s.userId = id then s.amount else 0)).sum)).sum

/-- Sum of the share amounts of one expense. -/
def shareSum (e : Expense) : ℚ := (e.shares.map (fun s => s.amount)).sum

/-- `calculateMemberBalances` (src/server/src/index.js:282-347): initialise
a balance record per group member, accumulate `paid` and `owed` over the
expenses, set `balance = paid - owed`, round all three fields to 2 decimal
places, and return the records sorted by balance descending. -/
def calculateMemberBalances (members : List String) (expenses : List Expense) :
    List MemberBalance :=
  sortByBalanceDesc ((insertionKeys members).map (fun id =>
    { user := id
      paid := round2 (paidOf expenses id)
      owed := round2 (owedOf expenses id)
      balance := round2 (paidOf expenses id - owedOf expenses id) }))

/-- The `debtors` working list: members with negative balance, most
negative first. -/
def debtorsOf (balances : List MemberBalance) : List MemberBalance :=
  sortByBalanceAsc (balances.filter (fun m => decide (m.balance < 0)))

/-- The `creditors` working list: members with positive balance, most
positive first. -/
def creditorsOf (balances : List MemberBalance) : List MemberBalance :=
  sortByBalanceDesc (balances.filter (fun m => decide (0 < m.balance)))

/-- Result of the settlement loop: the emitted suggestions, the members
removed from the working lists (with their final, mutated balances), and
the two leftover working lists. -/
structure SettleResult where
  settlements : List Settlement
  settled : List MemberBalance
  debtors : List MemberBalance
  creditors : List MemberBalance
deriving DecidableEq

/-- `amount = Math.min(Math.abs(debtor.balance), creditor.balance)`. -/
def stepAmount (d c : MemberBalance) : ℚ := min |d.balance| c.balance

/-- The front debtor after `debtor.balance += amount`. -/
def stepDebtor (d c : MemberBalance) : MemberBalance :=
  { d with balance := d.balance + stepAmount d c }

/-- The front creditor after `creditor.balance -= amount`. -/
def stepCreditor (d c : MemberBalance) : MemberBalance :=
  { c with balance := c.balance - stepAmount d c }

/-- The settlements pushed by one iteration:
`if (amount > 0.01) settlements.push({from, to, amount: round2(amount)})`. -/
def stepSettlements (d c : MemberBalance) : List Settlement :=
  if 1/100 < stepAmount d c then [⟨d.user, c.user, round2 (stepAmount d c)⟩]
  else []

/-- The debtors list after one iteration:
`if (Math.abs(debtor.balance) < 0.01) debtors.shift()`. -/
def nextDebtors (d c : MemberBalance) (ds : List MemberBalance) :
    List MemberBalance :=
  if |(stepDebtor d c).balance| < 1/100 then ds else stepDebtor d c :: ds

/-- The creditors list after one iteration:
`if (Math.abs(creditor.balance) < 0.01) creditors.shift()`. -/
def nextCreditors (d c : MemberBalance) (cs : List MemberBalance) :
    List MemberBalance :=
  if |(stepCreditor d c).balance| < 1/100 then cs else stepCreditor d c :: cs

/-- The members shifted off the working lists by one iteration, with their
final (mutated) balances. -/
def stepSettled (d c : MemberBalance) : List MemberBalance :=
  (if |(stepDebtor d c).balance| < 1/100 then [stepDebtor d c] else [])
    ++ (if |(stepCreditor d c).balance| < 1/100 then [stepCreditor d c] else [])

/-- The `while (debtors.length > 0 && creditors.length > 0)` loop of
`generateSettlementSuggestions` (src/server/src/index.js:362-386).  Each
iteration takes the front debtor and creditor, transfers
`amount = min(|debtor.balance|, creditor.balance)`, emits a suggestion only
when `amount > 0.01` (with the recorded amount rounded to 2 decimals),
adjusts both balances, and shifts off any member whose adjusted balance has
absolute value below `0.01`.  The loop is modelled with explicit fuel; the
theorems below prove that fuel `debtors.length + creditors.length` is
always enough, so the fuelled function coincides with the JavaScript loop. -/
def settleLoop : ℕ → List MemberBalance → List MemberBalance → SettleResult
  | 0, ds, cs => ⟨[], [], ds, cs⟩
  | _ + 1, [], cs => ⟨[], [], [], cs⟩
  | _ + 1, d :: ds, [] => ⟨[], [], d :: ds, []⟩
  | fuel + 1, d :: ds, c :: cs =>
    ⟨stepSettlements d c
        ++ (settleLoop fuel (nextDebtors d c ds) (nextCreditors d c cs)).settlements,
      stepSettled d c
        ++ (settleLoop fuel (nextDebtors d c ds) (nextCreditors d c cs)).settled,
      (settleLoop fuel (nextDebtors d c ds) (nextCreditors d c cs)).debtors,
      (settleLoop fuel (nextDebtors d c ds) (nextCreditors d c cs)).creditors⟩

/-- Run the settlement loop of `generateSettlementSuggestions` from the
filtered and sorted working lists. -/
def settleRun (balances : List MemberBalance) : SettleResult :=
  let ds := debtorsOf balances
  let cs := creditorsOf balances
  settleLoop (ds.length + cs.length) ds cs

/-- `generateSettlementSuggestions` (src/server/src/index.js:352-389):
the list of emitted settlement suggestions. -/
def generateSettlementSuggestions (balances : List MemberBalance) :
    List Settlement :=
  (settleRun balances).settlements

/-- The contents of the caller's balances array after
`generateSettlementSuggestions` returns.  `[...balances]` copies the array
but shares the member objects, so the loop's `debtor.balance += amount` and
`creditor.balance -= amount` mutate the caller's entries; an entry's final
balance is its value in the settled or leftover working lists (matched by
user id), and entries that were in neither list are untouched. -/
def finalBalances (balances : List MemberBalance) : List MemberBalance :=
  let r := settleRun balances
  let final := r.settled ++ r.debtors ++ r.creditors
  balances.map (fun m =>
    match final.find? (fun x => x.user == m.user) with
    | some x => x
    | none => m)

/-- Apply a settlement list to a balances list, in the sense of the spec's
validity criterion: each transfer moves the `from` member's balance toward
zero by `amount` and the `to` member's balance down by `amount`. -/
def applySettlements (balances : List MemberBalance) (ss : List Settlement) :
    List MemberBalance :=
  balances.map (fun m =>
    { m with
      balance := m.balance
        + (ss.map (fun s =>
            (if s.from = m.user then s.amount else 0)
              - (if s.to = m.user then s.amount else 0))).sum })

/-!
### RecurringBillDetector (src/utils/bill-predictor.utils.js)

`detectRecurringExpenses` buckets a group's expenses and then analyses each
bucket of at least 2 expenses (lines 127-198).  The analysis depends on the
expenses only through their creation days, so a bucket is modelled as the
list of its creation days (ascending, as produced by the sort at line 129;
the day-gaps `Math.round((t_i - t_{i-1}) / msPerDay)` are then exactly the
integer differences).  Only the `frequency`, `confidence` and `occurrences`
fields of the emitted pattern are modelled; `description`, `amount`,
`category` and `nextDueDate` are copied template data not touched by the
claims. -/

/-- The `intervals` array: day-gaps between consecutive occurrences. -/
def bucketIntervals (dates : List ℤ) : List ℤ :=
  List.zipWith (fun a b => a - b) dates.tail dates

/-- `avgInterval = intervals.reduce((sum, val) => sum + val, 0) / intervals.length`. -/
def avgInterval (intervals : List ℤ) : ℚ :=
  (intervals.map (Int.cast : ℤ → ℚ)).sum / intervals.length

/-- The frequency classification chain (lines 146-151). -/
def frequencyOf (avg : ℚ) : String :=
  if avg ≤ 8 then "weekly"
  else if avg ≤ 18 then "biweekly"
  else if avg ≤ 35 then "monthly"
  else if avg ≤ 100 then "quarterly"
  else "yearly"

/-- The radicand of the `stdDev` computation (lines 154-159):
mean of the squared deviations from `avgInterval`. -/
def variance (intervals : List ℤ) : ℚ :=
  (intervals.map (fun v => ((Int.cast v : ℚ) - avgInterval intervals) ^ 2)).sum
    / intervals.length

/-- `stdDev = Math.sqrt(variance)`. -/
noncomputable def stdDev (intervals : List ℤ) : ℝ :=
  Real.sqrt ((variance intervals : ℚ) : ℝ)

/-- `Math.max(0, Math.min(100, 100 - (stdDev / avgInterval) * 100))` with
IEEE semantics made explicit: when `avgInterval = 0` and `stdDev = 0` the
quotient is NaN, which propagates through `min` and `max` (modelled as
`none`); when `avgInterval = 0` and `stdDev > 0` the quotient is `+∞`, so
the expression is `-∞` and the clamp yields `0`; otherwise the arithmetic
is exact. -/
noncomputable def confidenceValue (intervals : List ℤ) : Option ℝ :=
  if avgInterval intervals = 0 then
    if stdDev intervals = 0 then none else some 0
  else
    some (max 0 (min 100 (100 - stdDev intervals / ((avgInterval intervals : ℚ) : ℝ) * 100)))

/-- `Math.round`: nearest integer, ties toward `+∞`. -/
noncomputable def jsRound (x : ℝ) : ℤ := ⌊x + 1/2⌋

/-- The fields of an emitted recurring pattern covered by this model.
`confidence` is `none` when the JavaScript value is NaN. -/
structure RecurringPattern where
  frequency : String
  confidence : Option ℤ
  occurrences : ℕ
deriving DecidableEq

/-- The per-bucket analysis of `detectRecurringExpenses` (lines 127-198),
applied to a bucket with at least 2 expenses, given as its list of creation
days in ascending order. -/
noncomputable def analyzeBucket (dates : List ℤ) : RecurringPattern :=
  { frequency := frequencyOf (avgInterval (bucketIntervals dates))
    confidence := (confidenceValue (bucketIntervals dates)).map jsRound
    occurrences := dates.length }

/-!
### generateBillName (src/utils/bill-predictor.utils.js:215-255)

The regular-expression replacement
`description.replace(/payment to|payment for|invoice|bill|receipt|transaction|#\d+/gi, "")`
is a single left-to-right pass: at each position the alternatives are tried
in order, a match is deleted and scanning resumes after it, and an
unmatched character is kept.  It is modelled on `List Char` by a fuelled
scanner (`stripNoiseFuel`); every step consumes at least one character, so
fuel equal to the string length always suffices (`stripNoiseFuel_fuel_irrel`
below). -/

/-- Case-insensitive literal match of `tok` (given lowercase) at the head
of `l`. -/
def matchesTokenAt (tok : List Char) (l : List Char) : Bool :=
  (l.take tok.length).map Char.toLower == tok

/-- One pass of the global replacement, with explicit fuel. -/
def stripNoiseFuel : ℕ → List Char → List Char
  | 0, l => l
  | _ + 1, [] => []
  | fuel + 1, c :: rest =>
    if matchesTokenAt "payment to".data (c :: rest) then
      stripNoiseFuel fuel ((c :: rest).drop 10)
    else if matchesTokenAt "payment for".data (c :: rest) then
      stripNoiseFuel fuel ((c :: rest).drop 11)
    else if matchesTokenAt "invoice".data (c :: rest) then
      stripNoiseFuel fuel ((c :: rest).drop 7)
    else if matchesTokenAt "bill".data (c :: rest) then
      stripNoiseFuel fuel ((c :: rest).drop 4)
    else if matchesTokenAt "receipt".data (c :: rest) then
      stripNoiseFuel fuel ((c :: rest).drop 7)
    else if matchesTokenAt "transaction".data (c :: rest) then
      stripNoiseFuel fuel ((c :: rest).drop 11)
    else if c == '#' && !(rest.takeWhile Char.isDigit).isEmpty then
      stripNoiseFuel fuel (rest.dropWhile Char.isDigit)
    else
      c :: stripNoiseFuel fuel rest

/-- The global regex replacement of `generateBillName`. -/
def stripNoise (l : List Char) : List Char := stripNoiseFuel l.length l

/-- Every scanner step consumes at least one character, so any fuel of at
least the string length produces the same result: the fuelled scanner
coincides with the unbounded JavaScript replacement. -/
lemma stripNoiseFuel_fuel_irrel :
    ∀ (f₁ f₂ : ℕ) (l : List Char), l.length ≤ f₁ → l.length ≤ f₂ →
      stripNoiseFuel f₁ l = stripNoiseFuel f₂ l := by
  intro f₁
  induction f₁ with
  | zero =>
    intro f₂ l h1 _
    have hl : l = [] := by
      cases l
      · rfl
      · simp at h1
    subst hl
    cases f₂ <;> rfl
  | succ f₁ ih =>
    intro f₂ l h1 h2
    cases l with
    | nil => cases f₂ <;> rfl
    | cons c rest =>
      cases f₂ with
      | zero => simp at h2
      | succ f₂ =>
        simp only [List.length_cons] at h1 h2
        have hdw := (List.dropWhile_sublist (l := rest) Char.isDigit).length_le
        simp only [stripNoiseFuel]
        split_ifs <;>
          first
            | exact congrArg (c :: ·) (ih f₂ rest (by omega) (by omega))
            | · refine ih f₂ _ ?_ ?_ <;>
                simp only [List.length_drop, List.length_cons] <;> omega
            | · refine ih f₂ _ ?_ ?_ <;> omega

/-- JavaScript `String.prototype.trim`. -/
def trimChars (l : List Char) : List Char :=
  ((l.dropWhile Char.isWhitespace).reverse.dropWhile Char.isWhitespace).reverse

/-- JavaScript `split(" ")`: split on every single space character;
adjacent separators produce empty fragments. -/
def splitOnSpace : List Char → List (List Char)
  | [] => [[]]
  | c :: rest =>
    if c == ' ' then [] :: splitOnSpace rest
    else
      match splitOnSpace rest with
      | [] => [[c]]
      | w :: ws => (c :: w) :: ws

/-- `word.charAt(0).toUpperCase() + word.slice(1).toLowerCase()`. -/
def capitalizeWord : List Char → List Char
  | [] => []
  | c :: cs => c.toUpper :: cs.map Char.toLower

/-- The title-cased form of an already stripped and trimmed description:
`split(" ")`, capitalize each word, `join(" ")`. -/
def titleCaseWords (l : List Char) : List Char :=
  List.intercalate [' '] ((splitOnSpace l).map capitalizeWord)

/-- `generateBillName` (lines 215-255): strip the noise tokens, trim,
title-case each word, and fall back to the original description when the
result is empty (`billName || description`). -/
def generateBillName (description : String) : String :=
  let cleanDescription := trimChars (stripNoise description.data)
  let billName := titleCaseWords cleanDescription
  if billName.isEmpty then description else String.mk billName

/-! ### Lemmas about the settlement loop -/

lemma settleLoop_zero (ds cs : List MemberBalance) :
    settleLoop 0 ds cs = ⟨[], [], ds, cs⟩ := rfl

lemma settleLoop_nil_left (fuel : ℕ) (cs : List MemberBalance) :
    settleLoop fuel [] cs = ⟨[], [], [], cs⟩ := by
  cases fuel <;> rfl

lemma settleLoop_nil_right (fuel : ℕ) (ds : List MemberBalance) :
    settleLoop fuel ds [] = ⟨[], [], ds, []⟩ := by
  cases fuel <;> cases ds <;> rfl

lemma settleLoop_succ (fuel : ℕ) (d : MemberBalance) (ds : List MemberBalance)
    (c : MemberBalance) (cs : List MemberBalance) :
    settleLoop (fuel + 1) (d :: ds) (c :: cs) =
      ⟨stepSettlements d c
          ++ (settleLoop fuel (nextDebtors d c ds) (nextCreditors d c cs)).settlements,
        stepSettled d c
          ++ (settleLoop fuel (nextDebtors d c ds) (nextCreditors d c cs)).settled,
        (settleLoop fuel (nextDebtors d c ds) (nextCreditors d c cs)).debtors,
        (settleLoop fuel (nextDebtors d c ds) (nextCreditors d c cs)).creditors⟩ :=
  rfl

lemma stepDebtor_balance (d c : MemberBalance) :
    (stepDebtor d c).balance = d.balance + stepAmount d c := rfl

lemma stepCreditor_balance (d c : MemberBalance) :
    (stepCreditor d c).balance = c.balance - stepAmount d c := rfl

lemma stepDebtor_nonpos {d : MemberBalance} (c : MemberBalance)
    (hd : d.balance < 0) : (stepDebtor d c).balance ≤ 0 := by
  have h := min_le_left |d.balance| c.balance
  rw [abs_of_neg hd] at h
  rw [stepDebtor_balance, stepAmount]
  rw [abs_of_neg hd]
  linarith [min_le_left (-d.balance) c.balance]

lemma stepCreditor_nonneg (d : MemberBalance) {c : MemberBalance} :
    0 ≤ (stepCreditor d c).balance := by
  have h := min_le_right |d.balance| c.balance
  rw [stepCreditor_balance, stepAmount]
  linarith

/-- Each iteration zeroes at least one of the two front members, hence
shifts at least one of them. -/
lemma step_shift {d c : MemberBalance} (hd : d.balance < 0)
    (hc : 0 < c.balance) :
    |(stepDebtor d c).balance| < 1/100 ∨ |(stepCreditor d c).balance| < 1/100 := by
  rcases le_total |d.balance| c.balance with h | h
  · left
    rw [stepDebtor_balance, stepAmount, min_eq_left h, abs_of_neg hd]
    norm_num
  · right
    rw [stepCreditor_balance, stepAmount, min_eq_right h]
    norm_num

lemma nextDebtors_inv {d c : MemberBalance} {ds : List MemberBalance}
    (hd : d.balance < 0) (hds : ∀ m ∈ ds, m.balance < 0) :
    ∀ m ∈ nextDebtors d c ds, m.balance < 0 := by
  intro m hm
  rw [nextDebtors] at hm
  split at hm
  · exact hds m hm
  · next h =>
    rcases List.mem_cons.1 hm with rfl | hm
    · refine lt_of_le_of_ne (stepDebtor_nonpos c hd) fun h0 => h ?_
      rw [h0]
      norm_num
    · exact hds m hm

lemma nextCreditors_inv {d c : MemberBalance} {cs : List MemberBalance}
    (hcs : ∀ m ∈ cs, 0 < m.balance) :
    ∀ m ∈ nextCreditors d c cs, 0 < m.balance := by
  intro m hm
  rw [nextCreditors] at hm
  split at hm
  · exact hcs m hm
  · next h =>
    rcases List.mem_cons.1 hm with rfl | hm
    · refine lt_of_le_of_ne (stepCreditor_nonneg d) fun h0 => h ?_
      rw [← h0]
      norm_num
    · exact hcs m hm

lemma next_length {d c : MemberBalance} (ds cs : List MemberBalance)
    (hd : d.balance < 0) (hc : 0 < c.balance) :
    (nextDebtors d c ds).length + (nextCreditors d c cs).length
      ≤ ds.length + cs.length + 1 := by
  rw [nextDebtors, nextCreditors]
  rcases step_shift hd hc with h | h
  · rw [if_pos h]
    split <;> simp <;> omega
  · rw [if_pos h]
    split <;> simp <;> omega

/-- With fuel at least the total length of the working lists, the loop runs
to completion: one of the leftover lists is empty. -/
lemma settleLoop_terminal :
    ∀ (fuel : ℕ) (ds cs : List MemberBalance),
      (∀ m ∈ ds, m.balance < 0) → (∀ m ∈ cs, 0 < m.balance) →
      ds.length + cs.length ≤ fuel →
      (settleLoop fuel ds cs).debtors = [] ∨ (settleLoop fuel ds cs).creditors = [] := by
  intro fuel
  induction fuel with
  | zero =>
    intro ds cs _ _ hlen
    have hds : ds = [] := by
      cases ds
      · rfl
      · simp at hlen
    subst hds
    rw [settleLoop_nil_left]
    left
    rfl
  | succ fuel ih =>
    intro ds cs hd hc hlen
    match ds, cs with
    | [], cs =>
      rw [settleLoop_nil_left]
      left
      rfl
    | d :: ds, [] =>
      rw [settleLoop_nil_right]
      right
      rfl
    | d :: ds, c :: cs =>
      rw [settleLoop_succ]
      have hdb : d.balance < 0 := hd d (List.mem_cons_self d ds)
      have hcb : 0 < c.balance := hc c (List.mem_cons_self c cs)
      refine ih (nextDebtors d c ds) (nextCreditors d c cs)
        (nextDebtors_inv hdb fun m hm => hd m (List.mem_cons_of_mem d hm))
        (nextCreditors_inv fun m hm => hc m (List.mem_cons_of_mem c hm)) ?_
      have := next_length ds cs hdb hcb
      simp only [List.length_cons] at hlen
      omega

/-- Every member the loop removes from its working lists has been driven to
an absolute balance below the `0.01` tolerance. -/
lemma settleLoop_settled_small :
    ∀ (fuel : ℕ) (ds cs : List MemberBalance),
      ∀ m ∈ (settleLoop fuel ds cs).settled, |m.balance| < 1/100 := by
  intro fuel
  induction fuel with
  | zero =>
    intro ds cs m hm
    rw [settleLoop_zero] at hm
    simp at hm
  | succ fuel ih =>
    intro ds cs m hm
    match ds, cs with
    | [], cs =>
      rw [settleLoop_nil_left] at hm
      simp at hm
    | d :: ds, [] =>
      rw [settleLoop_nil_right] at hm
      simp at hm
    | d :: ds, c :: cs =>
      rw [settleLoop_succ] at hm
      rcases List.mem_append.1 hm with h | h
      · rw [stepSettled] at h
        rcases List.mem_append.1 h with h1 | h1 <;> (split at h1 <;> simp_all)
      · exact ih _ _ m h

/-- The loop emits at most `debtors.length + creditors.length - 1`
settlements. -/
lemma settleLoop_count :
    ∀ (fuel : ℕ) (ds cs : List MemberBalance),
      (∀ m ∈ ds, m.balance < 0) → (∀ m ∈ cs, 0 < m.balance) →
      (settleLoop fuel ds cs).settlements.length ≤ ds.length + cs.length - 1 := by
  intro fuel
  induction fuel with
  | zero =>
    intro ds cs _ _
    rw [settleLoop_zero]
    simp
  | succ fuel ih =>
    intro ds cs hd hc
    match ds, cs with
    | [], cs =>
      rw [settleLoop_nil_left]
      simp
    | d :: ds, [] =>
      rw [settleLoop_nil_right]
      simp
    | d :: ds, c :: cs =>
      rw [settleLoop_succ]
      have hdb : d.balance < 0 := hd d (List.mem_cons_self d ds)
      have hcb : 0 < c.balance := hc c (List.mem_cons_self c cs)
      have hstep : (stepSettlements d c).length ≤ 1 := by
        rw [stepSettlements]
        split <;> simp
      have hrec := ih (nextDebtors d c ds) (nextCreditors d c cs)
        (nextDebtors_inv hdb fun m hm => hd m (List.mem_cons_of_mem d hm))
        (nextCreditors_inv fun m hm => hc m (List.mem_cons_of_mem c hm))
      by_cases hempty : nextDebtors d c ds = [] ∨ nextCreditors d c cs = []
      · have hnil : (settleLoop fuel (nextDebtors d c ds) (nextCreditors d c cs)).settlements = [] := by
          rcases hempty with h | h <;> rw [h]
          · rw [settleLoop_nil_left]
          · rw [settleLoop_nil_right]
        simp only [List.length_append, hnil, List.length_nil, List.length_cons]
        omega
      · push_neg at hempty
        obtain ⟨h1, h2⟩ := hempty
        have hlen1 : 1 ≤ (nextDebtors d c ds).length := by
          cases h : nextDebtors d c ds
          · exact absurd h h1
          · simp
        have hlen2 : 1 ≤ (nextCreditors d c cs).length := by
          cases h : nextCreditors d c cs
          · exact absurd h h2
          · simp
        have hnl := next_length ds cs hdb hcb
        simp only [List.length_append, List.length_cons]
        omega

/-- The loop's result does not depend on the fuel, as long as the fuel is
at least the total length of the working lists: the JavaScript `while` loop
performs at most that many iterations. -/
lemma settleLoop_fuel_irrel :
    ∀ (f₁ f₂ : ℕ) (ds cs : List MemberBalance),
      (∀ m ∈ ds, m.balance < 0) → (∀ m ∈ cs, 0 < m.balance) →
      ds.length + cs.length ≤ f₁ → ds.length + cs.length ≤ f₂ →
      settleLoop f₁ ds cs = settleLoop f₂ ds cs := by
  intro f₁
  induction f₁ with
  | zero =>
    intro f₂ ds cs _ _ h1 _
    have hds : ds = [] := by
      cases ds
      · rfl
      · simp at h1
    subst hds
    rw [settleLoop_nil_left, settleLoop_nil_left]
  | succ f₁ ih =>
    intro f₂ ds cs hd hc h1 h2
    match ds, cs with
    | [], cs => rw [settleLoop_nil_left, settleLoop_nil_left]
    | d :: ds, [] => rw [settleLoop_nil_right, settleLoop_nil_right]
    | d :: ds, c :: cs =>
      match f₂ with
      | 0 => simp at h2
      | f₂ + 1 =>
        rw [settleLoop_succ, settleLoop_succ]
        have hdb : d.balance < 0 := hd d (List.mem_cons_self d ds)
        have hcb : 0 < c.balance := hc c (List.mem_cons_self c cs)
        have hnl := next_length ds cs hdb hcb
        simp only [List.length_cons] at h1 h2
        rw [ih f₂ (nextDebtors d c ds) (nextCreditors d c cs)
          (nextDebtors_inv hdb fun m hm => hd m (List.mem_cons_of_mem d hm))
          (nextCreditors_inv fun m hm => hc m (List.mem_cons_of_mem c hm))
          (by omega) (by omega)]

/-- `toFixed(2)` of a value strictly greater than `0.01` is at least `0.01`. -/
lemma le_round2_of_lt {a : ℚ} (h : 1/100 < a) : 1/100 ≤ round2 a := by
  rw [round2]
  have h1 : (1 : ℤ) ≤ ⌊a * 100 + 1/2⌋ := by
    rw [Int.le_floor]
    push_cast
    linarith
  have h2 : (1 : ℚ) ≤ (⌊a * 100 + 1/2⌋ : ℚ) := by exact_mod_cast h1
  linarith

/-- Every emitted settlement records an amount of at least `0.01`. -/
lemma settleLoop_amounts :
    ∀ (fuel : ℕ) (ds cs : List MemberBalance),
      ∀ s ∈ (settleLoop fuel ds cs).settlements, 1/100 ≤ s.amount := by
  intro fuel
  induction fuel with
  | zero =>
    intro ds cs s hs
    rw [settleLoop_zero] at hs
    simp at hs
  | succ fuel ih =>
    intro ds cs s hs
    match ds, cs with
    | [], cs =>
      rw [settleLoop_nil_left] at hs
      simp at hs
    | d :: ds, [] =>
      rw [settleLoop_nil_right] at hs
      simp at hs
    | d :: ds, c :: cs =>
      rw [settleLoop_succ] at hs
      rcases List.mem_append.1 hs with h | h
      · rw [stepSettlements] at h
        split at h
        · next hgt =>
          rcases List.mem_singleton.1 h with rfl
          exact le_round2_of_lt hgt
        · simp at h
      · exact ih _ _ s h

/-! ### Lemmas about the working lists -/

lemma debtorsOf_inv (balances : List MemberBalance) :
    ∀ m ∈ debtorsOf balances, m.balance < 0 := by
  intro m hm
  rw [debtorsOf, sortByBalanceAsc] at hm
  have hm' := (List.mem_insertionSort _).1 hm
  have := (List.mem_filter.1 hm').2
  exact of_decide_eq_true this

lemma creditorsOf_inv (balances : List MemberBalance) :
    ∀ m ∈ creditorsOf balances, 0 < m.balance := by
  intro m hm
  rw [creditorsOf, sortByBalanceDesc] at hm
  have hm' := (List.mem_insertionSort _).1 hm
  have := (List.mem_filter.1 hm').2
  exact of_decide_eq_true this

lemma debtorsOf_sub (balances : List MemberBalance) :
    ∀ m ∈ debtorsOf balances, m ∈ balances := by
  intro m hm
  rw [debtorsOf, sortByBalanceAsc] at hm
  exact (List.mem_filter.1 ((List.mem_insertionSort _).1 hm)).1

lemma creditorsOf_sub (balances : List MemberBalance) :
    ∀ m ∈ creditorsOf balances, m ∈ balances := by
  intro m hm
  rw [creditorsOf, sortByBalanceDesc] at hm
  exact (List.mem_filter.1 ((List.mem_insertionSort _).1 hm)).1

lemma filter_sign_length (l : List MemberBalance) :
    (l.filter (fun m => decide (m.balance < 0))).length
      + (l.filter (fun m => decide (0 < m.balance))).length
      = (l.filter (fun m => decide (m.balance ≠ 0))).length := by
  simp only [ne_eq, decide_not]
  induction l with
  | nil => simp
  | cons m l ih =>
    rcases lt_trichotomy m.balance 0 with h | h | h
    · have h2 : ¬ 0 < m.balance := lt_asymm h
      simp [List.filter_cons, h, h2, h.ne]
      omega
    · have h1 : ¬ m.balance < 0 := by rw [h]; exact lt_irrefl 0
      have h2 : ¬ 0 < m.balance := by rw [h]; exact lt_irrefl 0
      simp [List.filter_cons, h1, h2, h]
      exact ih
    · have h1 : ¬ m.balance < 0 := lt_asymm h
      simp [List.filter_cons, h1, h, h.ne']
      omega

lemma debtors_creditors_length (balances : List MemberBalance) :
    (debtorsOf balances).length + (creditorsOf balances).length
      = (balances.filter (fun m => decide (m.balance ≠ 0))).length := by
  rw [debtorsOf, creditorsOf, sortByBalanceAsc, sortByBalanceDesc,
    List.length_insertionSort, List.length_insertionSort]
  exact filter_sign_length balances

lemma settleRun_eq (balances : List MemberBalance) :
    settleRun balances =
      settleLoop ((debtorsOf balances).length + (creditorsOf balances).length)
        (debtorsOf balances) (creditorsOf balances) := rfl

/-! ### Theorems for the settlement claims -/

/-- C3: for every input balance list, `generateSettlementSuggestions`
terminates — with fuel `debtors.length + creditors.length` the loop reaches
a state where a working list is empty, and any larger fuel gives the same
result, so the `while` loop performs at most `debtors.length +
creditors.length` iterations — and the returned list has at most `n - 1`
transfers, where `n` is the number of members with nonzero balance. -/
theorem generateSettlements_terminates (balances : List MemberBalance) :
    ((settleRun balances).debtors = [] ∨ (settleRun balances).creditors = []) ∧
    (∀ fuel : ℕ,
      (debtorsOf balances).length + (creditorsOf balances).length ≤ fuel →
      settleLoop fuel (debtorsOf balances) (creditorsOf balances) = settleRun balances) ∧
    (generateSettlementSuggestions balances).length
      ≤ (balances.filter (fun m => decide (m.balance ≠ 0))).length - 1 := by
  refine ⟨?_, ?_, ?_⟩
  · rw [settleRun_eq]
    exact settleLoop_terminal _ _ _ (debtorsOf_inv balances)
      (creditorsOf_inv balances) le_rfl
  · intro fuel hfuel
    rw [settleRun_eq]
    exact settleLoop_fuel_irrel fuel _ _ _ (debtorsOf_inv balances)
      (creditorsOf_inv balances) hfuel le_rfl
  · rw [generateSettlementSuggestions, settleRun_eq, ← debtors_creditors_length]
    exact settleLoop_count _ _ _ (debtorsOf_inv balances) (creditorsOf_inv balances)

/-- C3 witness: on a two-member example the loop result is independent of
any sufficient fuel and the bounds hold. -/
theorem generateSettlements_terminates_witness :
    settleLoop 5 (debtorsOf [⟨"A", 0, 0, 1⟩, ⟨"B", 0, 0, -1⟩])
        (creditorsOf [⟨"A", 0, 0, 1⟩, ⟨"B", 0, 0, -1⟩])
      = settleRun [⟨"A", 0, 0, 1⟩, ⟨"B", 0, 0, -1⟩] :=
  (generateSettlements_terminates [⟨"A", 0, 0, 1⟩, ⟨"B", 0, 0, -1⟩]).2.1 5
    (of_decide_eq_true (by with_unfolding_all rfl))

/-- C1 (amended): for balances summing to 0 within the tolerance, the loop
terminates, and every member it removes from its working lists is driven to
internal `|balance| < 0.01`; applying the returned transfers, however, need
not bring every member of the input below the tolerance (see the
counterexample), because transfers of amount `≤ 0.01` are suppressed while
the internal balances are still adjusted, and leftover members of the
unexhausted list are never settled. -/
theorem generateSettlements_valid_amended (balances : List MemberBalance)
    (h : |(balances.map (fun m => m.balance)).sum| ≤ 1/100) :
    ((settleRun balances).debtors = [] ∨ (settleRun balances).creditors = []) ∧
    ∀ m ∈ (settleRun balances).settled, |m.balance| < 1/100 := by
  refine ⟨?_, ?_⟩
  · rw [settleRun_eq]
    exact settleLoop_terminal _ _ _ (debtorsOf_inv balances)
      (creditorsOf_inv balances) le_rfl
  · rw [settleRun_eq]
    exact settleLoop_settled_small _ _ _

/-- C1 witness. -/
theorem generateSettlements_valid_witness :
    |(([⟨"A", 0, 0, 1⟩, ⟨"B", 0, 0, -1⟩] : List MemberBalance).map
        (fun m => m.balance)).sum| ≤ 1/100 ∧
    (((settleRun [⟨"A", 0, 0, 1⟩, ⟨"B", 0, 0, -1⟩]).debtors = []
        ∨ (settleRun [⟨"A", 0, 0, 1⟩, ⟨"B", 0, 0, -1⟩]).creditors = []) ∧
      ∀ m ∈ (settleRun [⟨"A", 0, 0, 1⟩, ⟨"B", 0, 0, -1⟩]).settled,
        |m.balance| < 1/100) :=
  ⟨of_decide_eq_true (by with_unfolding_all rfl),
    generateSettlements_valid_amended [⟨"A", 0, 0, 1⟩, ⟨"B", 0, 0, -1⟩]
      (of_decide_eq_true (by with_unfolding_all rfl))⟩

/-- C1 counterexample: these five balances sum to 0 exactly, yet after
applying both returned transfers the member `"E"` keeps balance `0.018`,
whose absolute value is not below `0.01`. -/
theorem generateSettlements_valid_counterexample :
    ((([⟨"A", 0, 0, 1⟩, ⟨"B", 0, 0, 1/2⟩, ⟨"E", 0, 0, 18/1000⟩,
        ⟨"C", 0, 0, -1009/1000⟩, ⟨"D", 0, 0, -509/1000⟩] : List MemberBalance).map
          (fun m => m.balance)).sum = 0) ∧
    ¬ (∀ m ∈ applySettlements
          [⟨"A", 0, 0, 1⟩, ⟨"B", 0, 0, 1/2⟩, ⟨"E", 0, 0, 18/1000⟩,
            ⟨"C", 0, 0, -1009/1000⟩, ⟨"D", 0, 0, -509/1000⟩]
          (generateSettlementSuggestions
            [⟨"A", 0, 0, 1⟩, ⟨"B", 0, 0, 1/2⟩, ⟨"E", 0, 0, 18/1000⟩,
              ⟨"C", 0, 0, -1009/1000⟩, ⟨"D", 0, 0, -509/1000⟩]),
        |m.balance| < 1/100) :=
  of_decide_eq_true (by with_unfolding_all rfl)

/-- C5 (amended): every emitted transfer has recorded amount at least
`0.01`; the pre-rounding amount is strictly greater than `0.01`, but
rounding to 2 decimals can bring the recorded amount down to exactly
`0.01` (see the counterexample). -/
theorem settlement_amount_min_amended (balances : List MemberBalance) :
    ∀ s ∈ generateSettlementSuggestions balances, 1/100 ≤ s.amount := by
  intro s hs
  rw [generateSettlementSuggestions, settleRun_eq] at hs
  exact settleLoop_amounts _ _ _ s hs

/-- C5 witness. -/
theorem settlement_amount_min_witness :
    (1 : ℚ)/100 ≤ (Settlement.mk "B" "A" 1).amount :=
  settlement_amount_min_amended [⟨"A", 0, 0, 1⟩, ⟨"B", 0, 0, -1⟩]
    ⟨"B", "A", 1⟩ (of_decide_eq_true (by with_unfolding_all rfl))

/-- C5 counterexample: balances `±0.011` produce a transfer whose
pre-rounding amount `0.011` exceeds `0.01`, but whose recorded amount
`round2(0.011) = 0.01` is not strictly greater than `0.01`. -/
theorem settlement_amount_min_counterexample :
    generateSettlementSuggestions
        [⟨"A", 0, 0, 11/1000⟩, ⟨"B", 0, 0, -11/1000⟩] = [⟨"B", "A", 1/100⟩] ∧
    ¬ (1/100 < (1/100 : ℚ)) :=
  of_decide_eq_true (by with_unfolding_all rfl)

/-! ### Lemmas for the balance-sum claim -/

lemma insertionKeys_mem (l : List String) (a : String) :
    a ∈ insertionKeys l ↔ a ∈ l := by
  induction l with
  | nil => simp [insertionKeys]
  | cons b l ih =>
    simp only [insertionKeys, List.mem_cons, List.mem_filter, ih]
    constructor
    · rintro (rfl | ⟨h, _⟩)
      · exact Or.inl rfl
      · exact Or.inr h
    · rintro (rfl | h)
      · exact Or.inl rfl
      · by_cases hab : a = b
        · exact Or.inl hab
        · exact Or.inr ⟨h, by simpa using hab⟩

lemma insertionKeys_nodup (l : List String) : (insertionKeys l).Nodup := by
  induction l with
  | nil => exact List.nodup_nil
  | cons b l ih =>
    rw [insertionKeys]
    refine List.nodup_cons.2 ⟨?_, ih.filter _⟩
    intro hb
    have := (List.mem_filter.1 hb).2
    simp at this

lemma insertionKeys_length_le (l : List String) :
    (insertionKeys l).length ≤ l.length := by
  induction l with
  | nil => simp [insertionKeys]
  | cons b l ih =>
    rw [insertionKeys]
    simp only [List.length_cons]
    have := List.length_filter_le (fun x => decide (x ≠ b)) (insertionKeys l)
    omega

lemma sum_map_comm {α β : Type} (L : List α) (E : List β) (f : α → β → ℚ) :
    (L.map (fun a => (E.map (f a)).sum)).sum
      = (E.map (fun b => (L.map (fun a => f a b)).sum)).sum := by
  induction L with
  | nil =>
    simp
  | cons a L ih =>
    simp only [List.map_cons, List.sum_cons, ih]
    rw [← List.sum_map_add]

lemma sum_if_single {L : List String} (hL : L.Nodup) (p : String) (x : ℚ) :
    (L.map (fun id => if p = id then x else 0)).sum = if p ∈ L then x else 0 := by
  induction L with
  | nil => simp
  | cons a as ih =>
    have ha : a ∉ as := (List.nodup_cons.1 hL).1
    have ih' := ih (List.nodup_cons.1 hL).2
    simp only [List.map_cons, List.sum_cons, ih', List.mem_cons]
    by_cases hpa : p = a
    · subst hpa
      rw [if_pos rfl, if_neg ha, if_pos (Or.inl rfl)]
      ring
    · rw [if_neg hpa]
      by_cases hpm : p ∈ as
      · rw [if_pos hpm, if_pos (Or.inr hpm)]
        ring
      · rw [if_neg hpm, if_neg]
        · ring
        · rintro (h | h)
          · exact hpa h
          · exact hpm h

lemma sum_map_sub {α : Type} (l : List α) (f g : α → ℚ) :
    (l.map (fun a => f a - g a)).sum = (l.map f).sum - (l.map g).sum := by
  induction l with
  | nil => simp
  | cons a l ih =>
    simp only [List.map_cons, List.sum_cons, ih]
    ring

lemma abs_list_sum_le (l : List ℚ) : |l.sum| ≤ (l.map (fun x => |x|)).sum := by
  induction l with
  | nil => simp
  | cons a l ih =>
    simp only [List.sum_cons, List.map_cons]
    calc |a + l.sum| ≤ |a| + |l.sum| := abs_add a l.sum
      _ ≤ |a| + (l.map (fun x => |x|)).sum := by linarith

/-- `toFixed(2)` moves a value by at most half a cent. -/
lemma round2_err (x : ℚ) : |round2 x - x| ≤ 1/200 := by
  rw [round2]
  have h1 : (⌊x * 100 + 1/2⌋ : ℚ) ≤ x * 100 + 1/2 := Int.floor_le _
  have h2 : x * 100 + 1/2 < (⌊x * 100 + 1/2⌋ : ℚ) + 1 := Int.lt_floor_add_one _
  rw [abs_le]
  constructor <;> [skip; skip] <;> linarith

/-- The member-indexed sums collapse to per-expense discrepancies when every
payer and every share holder is a member. -/
lemma sum_balances_raw (members : List String) (expenses : List Expense)
    (hp : ∀ e ∈ expenses, e.paidById ∈ members)
    (hs : ∀ e ∈ expenses, ∀ s ∈ e.shares, s.userId ∈ members) :
    ((insertionKeys members).map
        (fun id => paidOf expenses id - owedOf expenses id)).sum
      = (expenses.map (fun e => e.amount - shareSum e)).sum := by
  have hnd := insertionKeys_nodup members
  have hpaid : ((insertionKeys members).map (fun id => paidOf expenses id)).sum
      = (expenses.map (fun e => e.amount)).sum := by
    simp only [paidOf]
    rw [sum_map_comm]
    refine congrArg List.sum (List.map_congr_left ?_)
    intro e he
    rw [sum_if_single hnd]
    rw [if_pos ((insertionKeys_mem members e.paidById).2 (hp e he))]
  have howed : ((insertionKeys members).map (fun id => owedOf expenses id)).sum
      = (expenses.map (fun e => shareSum e)).sum := by
    simp only [owedOf]
    rw [sum_map_comm]
    refine congrArg List.sum (List.map_congr_left ?_)
    intro e he
    rw [sum_map_comm]
    rw [shareSum]
    refine congrArg List.sum (List.map_congr_left ?_)
    intro s hsh
    rw [sum_if_single hnd]
    rw [if_pos ((insertionKeys_mem members s.userId).2 (hs e he s hsh))]
  calc ((insertionKeys members).map
        (fun id => paidOf expenses id - owedOf expenses id)).sum
      = ((insertionKeys members).map (fun id => paidOf expenses id)).sum
        - ((insertionKeys members).map (fun id => owedOf expenses id)).sum :=
        sum_map_sub _ _ _
    _ = (expenses.map (fun e => e.amount)).sum
        - (expenses.map (fun e => shareSum e)).sum := by rw [hpaid, howed]
    _ = (expenses.map (fun e => e.amount - shareSum e)).sum :=
        (sum_map_sub _ _ _).symm

/-- C2 (amended): when every payer and share holder belongs to the member
set and each expense's shares sum to its amount within `0.01`, the returned
balances sum to at most `0.01` per expense plus `0.005` of rounding per
member — not to `0.01` overall: the per-expense discrepancies and the
per-member rounding both accumulate (see the counterexample). -/
theorem balances_sum_bound (members : List String) (expenses : List Expense)
    (hp : ∀ e ∈ expenses, e.paidById ∈ members)
    (hs : ∀ e ∈ expenses, ∀ s ∈ e.shares, s.userId ∈ members)
    (ht : ∀ e ∈ expenses, |e.amount - shareSum e| ≤ 1/100) :
    |((calculateMemberBalances members expenses).map (fun m => m.balance)).sum|
      ≤ expenses.length * (1/100) + members.length * (1/200) := by
  have hperm : ((calculateMemberBalances members expenses).map
        (fun m => m.balance)).sum
      = ((insertionKeys members).map
          (fun id => round2 (paidOf expenses id - owedOf expenses id))).sum := by
    rw [calculateMemberBalances, sortByBalanceDesc,
      List.Perm.sum_eq (List.Perm.map _ (List.perm_insertionSort _ _)),
      List.map_map]
    rfl
  rw [hperm]
  have hsplit : ((insertionKeys members).map
        (fun id => round2 (paidOf expenses id - owedOf expenses id))).sum
      = ((insertionKeys members).map
          (fun id => paidOf expenses id - owedOf expenses id)).sum
        + ((insertionKeys members).map
          (fun id => round2 (paidOf expenses id - owedOf expenses id)
            - (paidOf expenses id - owedOf expenses id))).sum := by
    rw [← List.sum_map_add]
    refine congrArg List.sum (List.map_congr_left ?_)
    intro id _
    ring
  rw [hsplit, sum_balances_raw members expenses hp hs]
  have hA : |(expenses.map (fun e => e.amount - shareSum e)).sum|
      ≤ (expenses.length : ℚ) * (1/100) := by
    refine le_trans (abs_list_sum_le _) ?_
    rw [List.map_map]
    have := List.sum_le_card_nsmul
      (expenses.map (fun e => |e.amount - shareSum e|)) (1/100)
      (by
        intro x hx
        rcases List.mem_map.1 hx with ⟨e, he, rfl⟩
        exact ht e he)
    rw [List.length_map] at this
    calc (expenses.map ((fun x => |x|) ∘ fun e => e.amount - shareSum e)).sum
        = (expenses.map (fun e => |e.amount - shareSum e|)).sum := rfl
      _ ≤ expenses.length • ((1:ℚ)/100) := this
      _ = (expenses.length : ℚ) * (1/100) := nsmul_eq_mul _ _
  have hB : |((insertionKeys members).map
        (fun id => round2 (paidOf expenses id - owedOf expenses id)
          - (paidOf expenses id - owedOf expenses id))).sum|
      ≤ (members.length : ℚ) * (1/200) := by
    refine le_trans (abs_list_sum_le _) ?_
    rw [List.map_map]
    have hle := List.sum_le_card_nsmul
      ((insertionKeys members).map
        (fun id => |round2 (paidOf expenses id - owedOf expenses id)
          - (paidOf expenses id - owedOf expenses id)|)) (1/200)
      (by
        intro x hx
        rcases List.mem_map.1 hx with ⟨id, _, rfl⟩
        exact round2_err _)
    rw [List.length_map] at hle
    have hcast : ((insertionKeys members).length : ℚ) ≤ (members.length : ℚ) := by
      exact_mod_cast insertionKeys_length_le members
    calc ((insertionKeys members).map ((fun x => |x|) ∘ _)).sum
        = ((insertionKeys members).map
            (fun id => |round2 (paidOf expenses id - owedOf expenses id)
              - (paidOf expenses id - owedOf expenses id)|)).sum := rfl
      _ ≤ (insertionKeys members).length • ((1:ℚ)/200) := hle
      _ = ((insertionKeys members).length : ℚ) * (1/200) := nsmul_eq_mul _ _
      _ ≤ (members.length : ℚ) * (1/200) := by linarith
  calc |(expenses.map (fun e => e.amount - shareSum e)).sum
        + ((insertionKeys members).map
            (fun id => round2 (paidOf expenses id - owedOf expenses id)
              - (paidOf expenses id - owedOf expenses id))).sum|
      ≤ |(expenses.map (fun e => e.amount - shareSum e)).sum|
        + |((insertionKeys members).map
            (fun id => round2 (paidOf expenses id - owedOf expenses id)
              - (paidOf expenses id - owedOf expenses id))).sum| := abs_add _ _
    _ ≤ (expenses.length : ℚ) * (1/100) + (members.length : ℚ) * (1/200) := by
        linarith

/-- C2 witness. -/
theorem balances_sum_bound_witness :
    |((calculateMemberBalances ["A"]
        [⟨"A", 1, [⟨"A", 1⟩]⟩]).map (fun m => m.balance)).sum|
      ≤ ([⟨"A", 1, [⟨"A", 1⟩]⟩] : List Expense).length * (1/100)
        + (["A"] : List String).length * (1/200) :=
  balances_sum_bound ["A"] [⟨"A", 1, [⟨"A", 1⟩]⟩]
    (of_decide_eq_true (by with_unfolding_all rfl))
    (of_decide_eq_true (by with_unfolding_all rfl))
    (of_decide_eq_true (by with_unfolding_all rfl))

/-- C2 counterexample: one member, two expenses each of whose shares fall
short of the amount by `0.009 < 0.01`; the per-expense discrepancies add up
and the rounded balance sum is `0.02`, which exceeds the claimed `0.01`
tolerance. -/
theorem balances_sum_bound_counterexample :
    (∀ e ∈ ([⟨"A", 1, [⟨"A", 991/1000⟩]⟩, ⟨"A", 1, [⟨"A", 991/1000⟩]⟩] :
        List Expense), e.paidById ∈ ["A"] ∧ (∀ s ∈ e.shares, s.userId ∈ ["A"])
          ∧ |e.amount - shareSum e| < 1/100) ∧
    ¬ (|((calculateMemberBalances ["A"]
          [⟨"A", 1, [⟨"A", 991/1000⟩]⟩, ⟨"A", 1, [⟨"A", 991/1000⟩]⟩]).map
            (fun m => m.balance)).sum| ≤ 1/100) :=
  of_decide_eq_true (by with_unfolding_all rfl)

/-! ### Lemmas for the recurring-pattern claims -/

lemma zipWith_sub_replicate (k : ℕ) (c : ℤ) :
    List.zipWith (fun a b => a - b) (List.replicate k c)
      (List.replicate (k + 1) c) = List.replicate k 0 := by
  induction k with
  | zero => rfl
  | succ k ih =>
    show (c - c) :: List.zipWith _ (List.replicate k c) (List.replicate (k + 1) c)
      = List.replicate (k + 1) 0
    rw [ih, sub_self]
    rfl

lemma bucketIntervals_replicate (k : ℕ) (c : ℤ) :
    bucketIntervals (List.replicate k c) = List.replicate (k - 1) 0 := by
  cases k with
  | zero => rfl
  | succ k =>
    rw [bucketIntervals]
    show List.zipWith _ (List.replicate k c) (List.replicate (k + 1) c) = _
    rw [zipWith_sub_replicate]
    rfl

lemma avgInterval_replicate_zero (m : ℕ) :
    avgInterval (List.replicate m (0 : ℤ)) = 0 := by
  rw [avgInterval, List.map_replicate]
  norm_num

lemma avgInterval_replicate (m : ℕ) (d : ℤ) (hm : 1 ≤ m) :
    avgInterval (List.replicate m d) = (d : ℚ) := by
  rw [avgInterval, List.map_replicate, List.sum_replicate, List.length_replicate,
    nsmul_eq_mul]
  have hm0 : (m : ℚ) ≠ 0 := Nat.cast_ne_zero.2 (by omega)
  field_simp

lemma variance_replicate (m : ℕ) (d : ℤ)
    (h : avgInterval (List.replicate m d) = (d : ℚ)) :
    variance (List.replicate m d) = 0 := by
  rw [variance, h, List.map_replicate, sub_self]
  norm_num

lemma stdDev_eq_zero {l : List ℤ} (h : variance l = 0) : stdDev l = 0 := by
  rw [stdDev, h]
  push_cast
  exact Real.sqrt_zero

lemma jsRound_hundred : jsRound 100 = 100 := by
  rw [jsRound, Int.floor_eq_iff]
  norm_num

lemma frequencyOf_intCast (d : ℤ) :
    frequencyOf (d : ℚ) =
      (if d ≤ 8 then "weekly" else if d ≤ 18 then "biweekly"
        else if d ≤ 35 then "monthly" else if d ≤ 100 then "quarterly"
        else "yearly") := by
  have h8 : ((d : ℚ) ≤ 8) ↔ (d ≤ 8) := by exact_mod_cast Iff.rfl
  have h18 : ((d : ℚ) ≤ 18) ↔ (d ≤ 18) := by exact_mod_cast Iff.rfl
  have h35 : ((d : ℚ) ≤ 35) ↔ (d ≤ 35) := by exact_mod_cast Iff.rfl
  have h100 : ((d : ℚ) ≤ 100) ↔ (d ≤ 100) := by exact_mod_cast Iff.rfl
  rw [frequencyOf]
  simp only [h8, h18, h35, h100]

/-- C7 (amended): a bucket of `k ≥ 2` expenses all created on the same day
is classified as `weekly` — all day-gaps are 0, so the average interval 0
falls into the first threshold — but its confidence is NaN (modelled as
`none`), not 100: the division `stdDev / avgInterval` is `0 / 0` and is not
guarded. -/
theorem same_day_bucket (k : ℕ) (c : ℤ) (hk : 2 ≤ k) :
    (analyzeBucket (List.replicate k c)).frequency = "weekly" ∧
    (analyzeBucket (List.replicate k c)).confidence = none ∧
    (analyzeBucket (List.replicate k c)).occurrences = k := by
  have hint : bucketIntervals (List.replicate k c) = List.replicate (k - 1) 0 :=
    bucketIntervals_replicate k c
  have havg : avgInterval (bucketIntervals (List.replicate k c)) = 0 := by
    rw [hint]
    exact avgInterval_replicate_zero _
  have hvar : variance (bucketIntervals (List.replicate k c)) = 0 := by
    rw [hint]
    exact variance_replicate _ _ (by rw [Int.cast_zero]; exact avgInterval_replicate_zero _)
  refine ⟨?_, ?_, ?_⟩
  · show frequencyOf (avgInterval (bucketIntervals (List.replicate k c))) = _
    rw [havg, frequencyOf]
    norm_num
  · show ((confidenceValue (bucketIntervals (List.replicate k c))).map jsRound) = none
    rw [confidenceValue, if_pos havg, if_pos (stdDev_eq_zero hvar)]
    rfl
  · show (List.replicate k c).length = k
    exact List.length_replicate k c

/-- C7 witness. -/
theorem same_day_bucket_witness :
    (analyzeBucket (List.replicate 2 (0 : ℤ))).frequency = "weekly" ∧
    (analyzeBucket (List.replicate 2 (0 : ℤ))).confidence = none ∧
    (analyzeBucket (List.replicate 2 (0 : ℤ))).occurrences = 2 :=
  same_day_bucket 2 0 (le_refl 2)

/-- C7 counterexample: for the two-expense same-day bucket the reported
confidence is NaN (`none`), not 100 — there is no guard on the division by
the zero average interval. -/
theorem same_day_bucket_counterexample :
    ¬ ((analyzeBucket [(0 : ℤ), 0]).confidence = some 100) := by
  have hint : bucketIntervals [(0 : ℤ), 0] = [0] := rfl
  have havg : avgInterval (bucketIntervals [(0 : ℤ), 0]) = 0 := by
    rw [hint]
    rw [avgInterval]
    norm_num
  have hvar : variance (bucketIntervals [(0 : ℤ), 0]) = 0 := by
    rw [variance, havg, hint]
    norm_num
  have : (analyzeBucket [(0 : ℤ), 0]).confidence = none := by
    show ((confidenceValue (bucketIntervals [(0 : ℤ), 0])).map jsRound) = none
    rw [confidenceValue, if_pos havg, if_pos (stdDev_eq_zero hvar)]
    rfl
  rw [this]
  simp

/-- C8: a bucket whose day-gaps are all equal to a positive `d` gets
confidence 100 (the standard deviation is 0) and is classified by the
closed thresholds on the average gap (`≤8` weekly, `≤18` biweekly, `≤35`
monthly, `≤100` quarterly, else yearly); in particular 2 occurrences 30
days apart give `monthly`/100/2, and gaps 7,7,7 give `weekly`/100. -/
theorem constant_gap_bucket :
    (∀ (dates : List ℤ) (d : ℤ) (m : ℕ), 0 < d → 1 ≤ m →
      bucketIntervals dates = List.replicate m d →
      (analyzeBucket dates).frequency =
        (if d ≤ 8 then "weekly" else if d ≤ 18 then "biweekly"
          else if d ≤ 35 then "monthly" else if d ≤ 100 then "quarterly"
          else "yearly") ∧
      (analyzeBucket dates).confidence = some 100) ∧
    ((analyzeBucket [(0 : ℤ), 30]).frequency = "monthly"
      ∧ (analyzeBucket [(0 : ℤ), 30]).confidence = some 100
      ∧ (analyzeBucket [(0 : ℤ), 30]).occurrences = 2) ∧
    ((analyzeBucket [(0 : ℤ), 7, 14, 21]).frequency = "weekly"
      ∧ (analyzeBucket [(0 : ℤ), 7, 14, 21]).confidence = some 100) := by
  have main : ∀ (dates : List ℤ) (d : ℤ) (m : ℕ), 0 < d → 1 ≤ m →
      bucketIntervals dates = List.replicate m d →
      (analyzeBucket dates).frequency =
        (if d ≤ 8 then "weekly" else if d ≤ 18 then "biweekly"
          else if d ≤ 35 then "monthly" else if d ≤ 100 then "quarterly"
          else "yearly") ∧
      (analyzeBucket dates).confidence = some 100 := by
    intro dates d m hd hm hint
    have havg : avgInterval (bucketIntervals dates) = (d : ℚ) := by
      rw [hint]
      exact avgInterval_replicate m d hm
    have hvar : variance (bucketIntervals dates) = 0 := by
      rw [hint]
      exact variance_replicate m d (by rw [← hint, havg])
    have hd0 : avgInterval (bucketIntervals dates) ≠ 0 := by
      rw [havg]
      exact_mod_cast hd.ne'
    constructor
    · show frequencyOf (avgInterval (bucketIntervals dates)) = _
      rw [havg, frequencyOf_intCast]
    · show ((confidenceValue (bucketIntervals dates)).map jsRound) = some 100
      rw [confidenceValue, if_neg hd0, stdDev_eq_zero hvar]
      rw [zero_div, mul_comm, mul_zero, sub_zero, min_self,
        max_eq_right (by norm_num : (0 : ℝ) ≤ 100)]
      rw [Option.map_some']
      rw [jsRound_hundred]
  refine ⟨main, ?_, ?_⟩
  · have h := main [(0 : ℤ), 30] 30 1 (by norm_num) (le_refl 1) rfl
    refine ⟨?_, h.2, rfl⟩
    rw [h.1]
    norm_num
  · have h := main [(0 : ℤ), 7, 14, 21] 7 3 (by norm_num) (by norm_num) rfl
    refine ⟨?_, h.2⟩
    rw [h.1]
    norm_num

/-- C8 witness. -/
theorem constant_gap_bucket_witness :
    (analyzeBucket [(0 : ℤ), 30]).frequency =
      (if (30 : ℤ) ≤ 8 then "weekly" else if (30 : ℤ) ≤ 18 then "biweekly"
        else if (30 : ℤ) ≤ 35 then "monthly" else if (30 : ℤ) ≤ 100 then "quarterly"
        else "yearly") ∧
    (analyzeBucket [(0 : ℤ), 30]).confidence = some 100 :=
  constant_gap_bucket.1 [(0 : ℤ), 30] 30 1 (by norm_num) (le_refl 1) rfl

/-! ### Theorems for the bill-name claims -/

/-- C9: `generateBillName` strips the noise tokens and `#`-digit references
case-insensitively, trims, and title-cases each remaining word; when the
stripped and title-cased result is empty it returns the original
description unchanged, and on `"Payment to Netflix #4821"` it returns
`"Netflix"`. -/
theorem generateBillName_spec :
    generateBillName "Payment to Netflix #4821" = "Netflix" ∧
    (∀ s : String, titleCaseWords (trimChars (stripNoise s.data)) = [] →
      generateBillName s = s) ∧
    (∀ s : String, titleCaseWords (trimChars (stripNoise s.data)) ≠ [] →
      generateBillName s = String.mk (titleCaseWords (trimChars (stripNoise s.data)))) := by
  refine ⟨rfl, ?_, ?_⟩
  · intro s h
    show (if (titleCaseWords (trimChars (stripNoise s.data))).isEmpty then s
      else String.mk (titleCaseWords (trimChars (stripNoise s.data)))) = s
    rw [h]
    rfl
  · intro s h
    show (if (titleCaseWords (trimChars (stripNoise s.data))).isEmpty then s
        else String.mk (titleCaseWords (trimChars (stripNoise s.data))))
      = String.mk (titleCaseWords (trimChars (stripNoise s.data)))
    rw [if_neg]
    simpa [List.isEmpty_iff] using h

/-- C9 witness: a description consisting of a single noise token strips to
the empty string and falls back to the original description. -/
theorem generateBillName_spec_witness :
    generateBillName "bill" = "bill" :=
  generateBillName_spec.2.1 "bill" rfl

/-- C10: the noise tokens are removed wherever they occur as substrings,
not only as standalone words: `"bill"` is deleted out of `"Billboard"`, so
`generateBillName "Billboard Tickets" = "Board Tickets"`. -/
theorem generateBillName_substring :
    generateBillName "Billboard Tickets" = "Board Tickets" := rfl

lemma mem_nextDebtors {d c m : MemberBalance} {ds : List MemberBalance}
    (hm : m ∈ nextDebtors d c ds) : m = stepDebtor d c ∨ m ∈ ds := by
  rw [nextDebtors] at hm
  split at hm
  · exact Or.inr hm
  · rcases List.mem_cons.1 hm with rfl | h
    · exact Or.inl rfl
    · exact Or.inr h

lemma mem_nextCreditors {d c m : MemberBalance} {cs : List MemberBalance}
    (hm : m ∈ nextCreditors d c cs) : m = stepCreditor d c ∨ m ∈ cs := by
  rw [nextCreditors] at hm
  split at hm
  · exact Or.inr hm
  · rcases List.mem_cons.1 hm with rfl | h
    · exact Or.inl rfl
    · exact Or.inr h

lemma mem_stepSettled {d c m : MemberBalance} (hm : m ∈ stepSettled d c) :
    m = stepDebtor d c ∨ m = stepCreditor d c := by
  rw [stepSettled] at hm
  rcases List.mem_append.1 hm with h | h
  · split at h
    · exact Or.inl (List.mem_singleton.1 h)
    · exact absurd h (List.not_mem_nil m)
  · split at h
    · exact Or.inr (List.mem_singleton.1 h)
    · exact absurd h (List.not_mem_nil m)

/-- Every member in the loop's output states carries the user of some
member of the input working lists. -/
lemma settleLoop_final_users :
    ∀ (fuel : ℕ) (ds cs : List MemberBalance),
      ∀ x ∈ (settleLoop fuel ds cs).settled ++ (settleLoop fuel ds cs).debtors
          ++ (settleLoop fuel ds cs).creditors,
        ∃ y ∈ ds ++ cs, x.user = y.user := by
  intro fuel
  induction fuel with
  | zero =>
    intro ds cs x hx
    rw [settleLoop_zero] at hx
    exact ⟨x, by simpa using hx, rfl⟩
  | succ fuel ih =>
    intro ds cs x hx
    match ds, cs with
    | [], cs =>
      rw [settleLoop_nil_left] at hx
      exact ⟨x, by simpa using hx, rfl⟩
    | d :: ds, [] =>
      rw [settleLoop_nil_right] at hx
      exact ⟨x, by simpa using hx, rfl⟩
    | d :: ds, c :: cs =>
      rw [settleLoop_succ] at hx
      simp only [List.append_assoc, List.mem_append] at hx
      have hlift : x ∈ (settleLoop fuel (nextDebtors d c ds) (nextCreditors d c cs)).settled
            ++ (settleLoop fuel (nextDebtors d c ds) (nextCreditors d c cs)).debtors
            ++ (settleLoop fuel (nextDebtors d c ds) (nextCreditors d c cs)).creditors
          ∨ x ∈ stepSettled d c := by
        simp only [List.append_assoc, List.mem_append]
        tauto
      rcases hlift with hx' | hx'
      · obtain ⟨y, hy, hxy⟩ := ih _ _ x hx'
        rcases List.mem_append.1 hy with hy | hy
        · rcases mem_nextDebtors hy with rfl | hy
          · exact ⟨d, List.mem_append_left _ (List.mem_cons_self d ds), hxy⟩
          · exact ⟨y, List.mem_append_left _ (List.mem_cons_of_mem d hy), hxy⟩
        · rcases mem_nextCreditors hy with rfl | hy
          · exact ⟨c, List.mem_append_right _ (List.mem_cons_self c cs), hxy⟩
          · exact ⟨y, List.mem_append_right _ (List.mem_cons_of_mem c hy), hxy⟩
      · rcases mem_stepSettled hx' with rfl | rfl
        · exact ⟨d, List.mem_append_left _ (List.mem_cons_self d ds), rfl⟩
        · exact ⟨c, List.mem_append_right _ (List.mem_cons_self c cs), rfl⟩

/-- When both working lists are nonempty the loop strictly increases the
front debtor's stored balance: the first iteration transfers a positive
amount.  If no other working-list member shares the front debtor's user,
the output states contain an entry with that user, and every such entry has
a balance strictly above the front debtor's original one. -/
lemma settleLoop_front_debtor :
    ∀ (fuel : ℕ) (d : MemberBalance) (ds cs : List MemberBalance),
      1 ≤ fuel → cs ≠ [] →
      (∀ m ∈ d :: ds, m.balance < 0) → (∀ m ∈ cs, 0 < m.balance) →
      (∀ m ∈ ds ++ cs, m.user ≠ d.user) →
      (∃ x ∈ (settleLoop fuel (d :: ds) cs).settled
          ++ (settleLoop fuel (d :: ds) cs).debtors
          ++ (settleLoop fuel (d :: ds) cs).creditors, x.user = d.user) ∧
      (∀ x ∈ (settleLoop fuel (d :: ds) cs).settled
          ++ (settleLoop fuel (d :: ds) cs).debtors
          ++ (settleLoop fuel (d :: ds) cs).creditors,
        x.user = d.user → d.balance < x.balance) := by
  intro fuel
  induction fuel with
  | zero =>
    intro d ds cs hfuel
    exact absurd hfuel (by norm_num)
  | succ fuel ih =>
    intro d ds cs _ hcs hd hc husers
    match cs, hcs with
    | c :: cs, _ =>
      have hdb : d.balance < 0 := hd d (List.mem_cons_self d ds)
      have hcb : 0 < c.balance := hc c (List.mem_cons_self c cs)
      have hamt : 0 < stepAmount d c := by
        rw [stepAmount]
        exact lt_min (abs_pos.2 hdb.ne) hcb
      have hd₁ : d.balance < (stepDebtor d c).balance := by
        rw [stepDebtor_balance]
        linarith
      have hcud : c.user ≠ d.user :=
        husers c (List.mem_append_right _ (List.mem_cons_self c cs))
      have hcs'u : ∀ m ∈ nextCreditors d c cs, m.user ≠ d.user := by
        intro m hm
        rcases mem_nextCreditors hm with rfl | hm
        · exact hcud
        · exact husers m (List.mem_append_right _ (List.mem_cons_of_mem c hm))
      rw [settleLoop_succ]
      by_cases hsd : |(stepDebtor d c).balance| < 1/100
      · -- the front debtor settles in this iteration
        have hds' : nextDebtors d c ds = ds := if_pos hsd
        have hd₁mem : stepDebtor d c ∈ stepSettled d c := by
          rw [stepSettled]
          exact List.mem_append_left _ (by rw [if_pos hsd]; exact List.mem_singleton.2 rfl)
        have hrestno : ∀ x ∈ (settleLoop fuel (nextDebtors d c ds) (nextCreditors d c cs)).settled
            ++ (settleLoop fuel (nextDebtors d c ds) (nextCreditors d c cs)).debtors
            ++ (settleLoop fuel (nextDebtors d c ds) (nextCreditors d c cs)).creditors,
            x.user ≠ d.user := by
          intro x hx' heq
          obtain ⟨y, hy, hxy⟩ := settleLoop_final_users fuel _ _ x hx'
          rcases List.mem_append.1 hy with hy | hy
          · rw [hds'] at hy
            exact husers y (List.mem_append_left _ hy) (hxy.symm.trans heq)
          · exact hcs'u y hy (hxy.symm.trans heq)
        constructor
        · exact ⟨stepDebtor d c,
            List.mem_append_left _
              (List.mem_append_left _ (List.mem_append_left _ hd₁mem)), rfl⟩
        · intro x hx hxu
          rcases List.mem_append.1 hx with h1 | hC
          · rcases List.mem_append.1 h1 with h2 | hB
            · rcases List.mem_append.1 h2 with hS | hR
              · rcases mem_stepSettled hS with rfl | rfl
                · exact hd₁
                · exact absurd hxu hcud
              · exact absurd hxu (hrestno x
                  (List.mem_append_left _ (List.mem_append_left _ hR)))
            · exact absurd hxu (hrestno x
                (List.mem_append_left _ (List.mem_append_right _ hB)))
          · exact absurd hxu (hrestno x (List.mem_append_right _ hC))
      · -- the adjusted front debtor stays at the front
        have hds' : nextDebtors d c ds = stepDebtor d c :: ds := if_neg hsd
        have hd₁neg : (stepDebtor d c).balance < 0 := by
          refine lt_of_le_of_ne (stepDebtor_nonpos c hdb) fun h0 => hsd ?_
          rw [h0]
          norm_num
        have hsettled : ∀ x ∈ stepSettled d c, x.user = d.user → d.balance < x.balance := by
          intro x hx hxu
          rcases mem_stepSettled hx with rfl | rfl
          · exact hd₁
          · exact absurd hxu hcud
        by_cases hstop : fuel = 0 ∨ nextCreditors d c cs = []
        · -- the loop stops here; the adjusted debtor is left in the list
          have hrest : settleLoop fuel (nextDebtors d c ds) (nextCreditors d c cs)
              = ⟨[], [], stepDebtor d c :: ds, nextCreditors d c cs⟩ := by
            rcases hstop with rfl | h
            · rw [settleLoop_zero, hds']
            · rw [h, settleLoop_nil_right, hds']
          rw [hrest]
          constructor
          · exact ⟨stepDebtor d c,
              List.mem_append_left _
                (List.mem_append_right _ (List.mem_cons_self _ ds)), rfl⟩
          · intro x hx hxu
            rcases List.mem_append.1 hx with h1 | hC
            · rcases List.mem_append.1 h1 with h2 | hB
              · rcases List.mem_append.1 h2 with hS | hR
                · exact hsettled x hS hxu
                · exact absurd hR (List.not_mem_nil x)
              · rcases List.mem_cons.1 hB with rfl | hB
                · exact hd₁
                · exact absurd hxu (husers x (List.mem_append_left _ hB))
            · exact absurd hxu (hcs'u x hC)
        · push_neg at hstop
          obtain ⟨hf1, hcs'⟩ := hstop
          have hinv : ∀ m ∈ stepDebtor d c :: ds, m.balance < 0 := by
            intro m hm
            rcases List.mem_cons.1 hm with rfl | hm
            · exact hd₁neg
            · exact hd m (List.mem_cons_of_mem d hm)
          have husers' : ∀ m ∈ ds ++ nextCreditors d c cs,
              m.user ≠ (stepDebtor d c).user := by
            intro m hm
            rcases List.mem_append.1 hm with hm | hm
            · exact husers m (List.mem_append_left _ hm)
            · exact hcs'u m hm
          have hih := ih (stepDebtor d c) ds (nextCreditors d c cs)
            (by omega) hcs' hinv
            (nextCreditors_inv fun m hm => hc m (List.mem_cons_of_mem c hm))
            husers'
          rw [hds']
          constructor
          · obtain ⟨x, hx, hxu⟩ := hih.1
            refine ⟨x, ?_, hxu⟩
            simp only [List.append_assoc, List.mem_append] at hx ⊢
            tauto
          · intro x hx hxu
            simp only [List.append_assoc, List.mem_append] at hx
            have hx' : x ∈ stepSettled d c
                ∨ x ∈ (settleLoop fuel (stepDebtor d c :: ds) (nextCreditors d c cs)).settled
                  ++ (settleLoop fuel (stepDebtor d c :: ds) (nextCreditors d c cs)).debtors
                  ++ (settleLoop fuel (stepDebtor d c :: ds) (nextCreditors d c cs)).creditors := by
              simp only [List.append_assoc, List.mem_append]
              tauto
            rcases hx' with hx' | hx'
            · exact hsettled x hx' hxu
            · exact lt_trans hd₁ (hih.2 x hx' hxu)

lemma map_eq_self_mem {α : Type} {g : α → α} {l : List α} (h : l.map g = l) :
    ∀ a ∈ l, g a = a := by
  induction l with
  | nil =>
    intro a ha
    simp at ha
  | cons b l ih =>
    simp only [List.map_cons, List.cons.injEq] at h
    intro a ha
    rcases List.mem_cons.1 ha with rfl | ha
    · exact h.1
    · exact ih h.2 a ha

/-- C4 (amended): in the exact-value model, `calculateMemberBalances` and
`generateSettlementSuggestions` are deterministic — equal inputs give equal
outputs — but `generateSettlementSuggestions` mutates the `balance` fields
of the entries of its argument (the array spread copies the array, not the
member objects).  For an input with pairwise distinct users, it leaves
every entry's balance unchanged — and then a repeated call also returns the
same output — exactly when its loop never runs, i.e. when the input has no
debtor or no creditor: whenever both exist, the first iteration strictly
increases the front debtor's stored balance. -/
theorem settlements_purity_amended (balances : List MemberBalance)
    (hnd : (balances.map (fun m => m.user)).Nodup) :
    (finalBalances balances = balances ∧
      generateSettlementSuggestions (finalBalances balances)
        = generateSettlementSuggestions balances)
      ↔ (debtorsOf balances = [] ∨ creditorsOf balances = []) := by
  constructor
  · rintro ⟨h1, _⟩
    by_contra hcon
    push_neg at hcon
    obtain ⟨hdne, hcne⟩ := hcon
    match hds : debtorsOf balances, hdne with
    | d :: ds₀, _ =>
      have hdmem : d ∈ balances :=
        debtorsOf_sub balances d (hds ▸ List.mem_cons_self d ds₀)
      have hdnodup : (debtorsOf balances).Nodup :=
        ((List.perm_insertionSort _ _).nodup_iff).2
          ((List.Nodup.of_map _ hnd).filter _)
      have hdnotin : d ∉ ds₀ := by
        rw [hds] at hdnodup
        exact (List.nodup_cons.1 hdnodup).1
      have husers : ∀ m ∈ ds₀ ++ creditorsOf balances, m.user ≠ d.user := by
        intro m hm heq
        rcases List.mem_append.1 hm with hm | hm
        · have hmb : m ∈ balances :=
            debtorsOf_sub balances m (hds ▸ List.mem_cons_of_mem d hm)
          have : m = d := List.inj_on_of_nodup_map hnd hmb hdmem heq
          exact hdnotin (this ▸ hm)
        · have hmb : m ∈ balances := creditorsOf_sub balances m hm
          have hmpos : 0 < m.balance := creditorsOf_inv balances m hm
          have : m = d := List.inj_on_of_nodup_map hnd hmb hdmem heq
          have hdneg : d.balance < 0 :=
            debtorsOf_inv balances d (hds ▸ List.mem_cons_self d ds₀)
          rw [this] at hmpos
          linarith
      have hrw : settleRun balances =
          settleLoop ((d :: ds₀).length + (creditorsOf balances).length)
            (d :: ds₀) (creditorsOf balances) := by
        rw [settleRun_eq, hds]
      have hfront := settleLoop_front_debtor
        ((d :: ds₀).length + (creditorsOf balances).length) d ds₀
        (creditorsOf balances)
        (by simp only [List.length_cons]; omega)
        hcne
        (fun m hm => debtorsOf_inv balances m (hds ▸ hm))
        (creditorsOf_inv balances)
        husers
      simp only [finalBalances, hrw] at h1
      have hgd := map_eq_self_mem h1 d hdmem
      cases hfind : ((settleLoop ((d :: ds₀).length + (creditorsOf balances).length)
          (d :: ds₀) (creditorsOf balances)).settled
            ++ (settleLoop ((d :: ds₀).length + (creditorsOf balances).length)
              (d :: ds₀) (creditorsOf balances)).debtors
            ++ (settleLoop ((d :: ds₀).length + (creditorsOf balances).length)
              (d :: ds₀) (creditorsOf balances)).creditors).find?
          (fun x => x.user == d.user) with
      | none =>
        obtain ⟨x, hxmem, hxu⟩ := hfront.1
        have := List.find?_eq_none.1 hfind x hxmem
        simp [hxu] at this
      | some y =>
        rw [hfind] at hgd
        simp only at hgd
        have hyu : y.user = d.user := by
          have := List.find?_some hfind
          simpa using this
        have hymem := List.mem_of_find?_eq_some hfind
        have := hfront.2 y hymem hyu
        rw [hgd] at this
        exact lt_irrefl _ this
  · intro hempty
    have hrun : settleRun balances =
        ⟨[], [], debtorsOf balances, creditorsOf balances⟩ := by
      rcases hempty with h | h
      · rw [settleRun_eq, h, settleLoop_nil_left]
      · rw [settleRun_eq, h, settleLoop_nil_right]
    have hself : finalBalances balances = balances := by
      rw [finalBalances, hrun]
      have : ∀ m ∈ balances,
          (match (([] : List MemberBalance) ++ debtorsOf balances
              ++ creditorsOf balances).find? (fun x => x.user == m.user) with
            | some x => x
            | none => m) = m := by
        intro m hm
        cases hfind : (([] : List MemberBalance) ++ debtorsOf balances
            ++ creditorsOf balances).find? (fun x => x.user == m.user) with
        | none => rfl
        | some x =>
          have hx := List.find?_some hfind
          have hmem := List.mem_of_find?_eq_some hfind
          have hxb : x ∈ balances := by
            simp only [List.nil_append, List.mem_append] at hmem
            rcases hmem with h | h
            · exact debtorsOf_sub balances x h
            · exact creditorsOf_sub balances x h
          have hxu : x.user = m.user := by
            simpa using hx
          exact List.inj_on_of_nodup_map hnd hxb hm hxu
      calc balances.map (fun m =>
            match (([] : List MemberBalance) ++ debtorsOf balances
                ++ creditorsOf balances).find? (fun x => x.user == m.user) with
              | some x => x
              | none => m)
          = balances.map id := List.map_congr_left this
        _ = balances := List.map_id balances
    exact ⟨hself, by rw [hself]⟩

/-- C4 witness: a single creditor with no debtors is left untouched and a
second call returns the same (empty) suggestion list. -/
theorem settlements_purity_witness :
    finalBalances [⟨"A", 0, 0, 5⟩] = [⟨"A", 0, 0, 5⟩] ∧
    generateSettlementSuggestions (finalBalances [⟨"A", 0, 0, 5⟩])
      = generateSettlementSuggestions [⟨"A", 0, 0, 5⟩] :=
  (settlements_purity_amended [⟨"A", 0, 0, 5⟩]
      (of_decide_eq_true (by with_unfolding_all rfl))).2
    (Or.inl (of_decide_eq_true (by with_unfolding_all rfl)))

/-- C4 counterexample: on balances `[A: 1, B: -1]` the call drives both
stored balances to 0 — the input entries are mutated — and a second call on
the mutated list returns `[]` instead of the first call's one transfer. -/
theorem settlements_purity_counterexample :
    finalBalances [⟨"A", 0, 0, 1⟩, ⟨"B", 0, 0, -1⟩]
        ≠ [⟨"A", 0, 0, 1⟩, ⟨"B", 0, 0, -1⟩] ∧
    generateSettlementSuggestions (finalBalances [⟨"A", 0, 0, 1⟩, ⟨"B", 0, 0, -1⟩])
        ≠ generateSettlementSuggestions [⟨"A", 0, 0, 1⟩, ⟨"B", 0, 0, -1⟩] :=
  of_decide_eq_true (by with_unfolding_all rfl)

/-- C6: the end-to-end scenario — members A, B, C, expense 1 paid by A for
30 split 10/10/10, expense 2 paid by B for 60 split 20/20/20 — yields
balances 30 for B, 0 for A, −30 for C (sorted descending), and the
settlement suggestions on those balances are exactly one transfer C→B of
30. -/
theorem end_to_end_scenario :
    calculateMemberBalances ["A", "B", "C"]
        [⟨"A", 30, [⟨"A", 10⟩, ⟨"B", 10⟩, ⟨"C", 10⟩]⟩,
          ⟨"B", 60, [⟨"A", 20⟩, ⟨"B", 20⟩, ⟨"C", 20⟩]⟩] =
      [⟨"B", 60, 30, 30⟩, ⟨"A", 30, 30, 0⟩, ⟨"C", 0, 30, -30⟩] ∧
    generateSettlementSuggestions
        (calculateMemberBalances ["A", "B", "C"]
          [⟨"A", 30, [⟨"A", 10⟩, ⟨"B", 10⟩, ⟨"C", 10⟩]⟩,
            ⟨"B", 60, [⟨"A", 20⟩, ⟨"B", 20⟩, ⟨"C", 20⟩]⟩]) =
      [⟨"C", "B", 30⟩] :=
  of_decide_eq_true (by with_unfolding_all rfl)

end Obito
